import Mathlib

/-!
Shallow embedding of the structured-logging decision-and-dispatch core of
the repository snapshot (the `zapcore` package plus the terminal-hook
selection in the logger facade).  Pure functions of the Go source become
Lean functions; the side effects of a write (bytes handed to a sink, sync
calls, buffer frees, hook invocations, diagnostic lines) are made explicit
as event traces returned alongside the Go return values; Go `error` results
are modelled as `List Err` with `[]` standing for `nil` (so `multierr.Append`
becomes list concatenation); Go nil-able pointers and interface values
become `Option`.
-/

namespace Zapcore

/-- Go `type Level int8`: a logging priority, higher is more important.
Modelled as an unbounded integer: the source only compares levels and steps
through the bounded range Debug..Fatal, never exercising int8 overflow. -/
abbrev Level := Int

/-- Go `DebugLevel Level = iota - 1` (= -1). -/
def DebugLevel : Level := -1

/-- Go `InfoLevel` (= 0, the zero value of `Level`). -/
def InfoLevel : Level := 0

/-- Go `WarnLevel` (= 1). -/
def WarnLevel : Level := 1

/-- Go `ErrorLevel` (= 2). -/
def ErrorLevel : Level := 2

/-- Go `DPanicLevel` (= 3). -/
def DPanicLevel : Level := 3

/-- Go `PanicLevel` (= 4). -/
def PanicLevel : Level := 4

/-- Go `FatalLevel` (= 5). -/
def FatalLevel : Level := 5

/-- Go `_minLevel = DebugLevel`. -/
def _minLevel : Level := DebugLevel

/-- Go `_maxLevel = FatalLevel`. -/
def _maxLevel : Level := FatalLevel

/-- Go `InvalidLevel = _maxLevel + 1`. -/
def InvalidLevel : Level := _maxLevel + 1

/-- Go `func (l Level) Enabled(lvl Level) bool { return lvl >= l }`: a plain
`Level` used as a threshold enables every level at or above itself. -/
def Level.Enabled (l lvl : Level) : Bool := lvl ≥ l

/-- Go `LevelEnabler` interface value.  The Go code dynamically type-asserts
whether the value additionally implements `leveledEnabler` (a `Level()`
method); `levelled` is `some v` exactly when the dynamic value has such a
method and it returns `v`. -/
structure LevelEnabler where
  Enabled : Level → Bool
  levelled : Option Level := none

/-- A plain `Level` viewed as a `LevelEnabler`.  The Go `Level` type has an
`Enabled` method but no `Level()` method, so `levelled` is `none`. -/
def Level.toEnabler (l : Level) : LevelEnabler :=
  { Enabled := Level.Enabled l }

/-- The levels Debug..Fatal in ascending order: the iteration space of the
Go loop `for lvl := _minLevel; lvl <= _maxLevel; lvl++`. -/
def allLevels : List Level :=
  [DebugLevel, InfoLevel, WarnLevel, ErrorLevel, DPanicLevel, PanicLevel, FatalLevel]

/-- The levels Fatal..Debug in descending order: the iteration space of the
Go loop `for l := _maxLevel; l >= _minLevel; l--` in `NewIncreaseLevelCore`. -/
def allLevelsDesc : List Level :=
  [FatalLevel, PanicLevel, DPanicLevel, ErrorLevel, WarnLevel, InfoLevel, DebugLevel]

/-- The ascending probe of Go `LevelOf`: the first level in Debug..Fatal for
which `enabled` holds, or `InvalidLevel` if none. -/
def levelProbe (enabled : Level → Bool) : Level :=
  (allLevels.find? enabled).getD InvalidLevel

/-- Go `func LevelOf(enab LevelEnabler) Level`: if the enabler implements
`leveledEnabler` return its `Level()` directly, otherwise probe the levels
Debug..Fatal in ascending order, returning `InvalidLevel` when none is
enabled. -/
def LevelOf (enab : LevelEnabler) : Level :=
  match enab.levelled with
  | some l => l
  | none => levelProbe enab.Enabled

/-- Go `error` values carried by the core: a message string. -/
abbrev Err := String

/-- Go `EntryCaller`: the caller of a logging function. -/
structure EntryCaller where
  Defined : Bool := false
  PC : Nat := 0
  File : String := ""
  Line : Int := 0
  Function : String := ""
  deriving DecidableEq

/-- Go `Entry`: a complete log message's metadata.  `Time` stands in for the
Go `time.Time` value. -/
structure Entry where
  Level : Level := InfoLevel
  Time : Int := 0
  LoggerName : String := ""
  Message : String := ""
  Caller : EntryCaller := {}
  Stack : String := ""
  deriving DecidableEq

/-- Go `Field`: one structured datum, opaque to the decision core (produced
by callers, consumed only by encoders). -/
structure Field where
  key : String := ""
  deriving DecidableEq

/-- Go `*buffer.Buffer`: the pooled byte buffer an encoder produces; only
its byte content matters to the core. -/
structure Buffer where
  data : List Nat := []
  deriving DecidableEq

/-- Go `Encoder` interface value.  `context` holds the fields written into
the encoder by `addFields` (via `With`); `encodeFn` is the encoder's
serialization behavior, a pure function of the accumulated context, the
entry and the call-site fields. -/
structure Encoder where
  context : List Field := []
  encodeFn : List Field → Entry → List Field → Except Err Buffer

/-- Go `Encoder.Clone`: an independent copy.  Values are immutable here, so
the copy is the value itself; `addFields` on the clone never affects the
original. -/
def Encoder.Clone (e : Encoder) : Encoder := e

/-- Go `addFields(enc ObjectEncoder, fields []Field)`: writes the fields
into the encoder. -/
def addFields (enc : Encoder) (fields : List Field) : Encoder :=
  { enc with context := enc.context ++ fields }

/-- Go `Encoder.EncodeEntry(ent, fields)`: serializes the entry and fields
(together with the encoder's accumulated context) into a pooled buffer, or
fails. -/
def Encoder.EncodeEntry (e : Encoder) (ent : Entry) (fields : List Field) :
    Except Err Buffer :=
  e.encodeFn e.context ent fields

/-- Go `WriteSyncer` interface value.  `sid` is an identity tag so traces
can say which sink was touched; `writeRes` gives the error result of
`Write` on given bytes (the byte-count result is ignored by the core);
`syncRes` the error result of `Sync`. -/
structure WriteSyncer where
  sid : Nat := 0
  writeRes : List Nat → Option Err := fun _ => none
  syncRes : Option Err := none

/-- One observable side effect of a write pipeline: bytes handed to a sink's
`Write`, a buffer returned to its pool via `Free`, a sink `Sync` call, or a
hook callback invocation. -/
inductive Event where
  | sinkWrite (sid : Nat) (bytes : List Nat)
  | bufFree
  | sinkSync (sid : Nat)
  | hookCall (hid : Nat) (ent : Entry)
  deriving DecidableEq

/-- Go `func(Entry) error` hook callback registered via `RegisterHooks`.
`hid` is an identity tag so traces can record which callback ran. -/
structure HookFn where
  hid : Nat := 0
  run : Entry → Option Err

/-- Go `CheckWriteAction`: the four enumerated post-write actions. -/
inductive CheckWriteAction where
  | WriteThenNoop
  | WriteThenGoexit
  | WriteThenPanic
  | WriteThenFatal
  deriving DecidableEq

/-- Go `CheckWriteHook` interface value: either a `CheckWriteAction` (which
implements the interface) or a user-defined hook type, identified by a tag.
Go interface equality `override == WriteThenNoop` becomes decidable
equality with `.action .WriteThenNoop`. -/
inductive CheckWriteHook where
  | action (a : CheckWriteAction)
  | custom (hid : Nat)
  deriving DecidableEq

/-- The concrete `Core` implementations of the snapshot: `nopCore`,
`ioCore`, `multiCore`, `levelFilterCore` and `hooked`.  Go interface
dispatch over this closed set becomes a match on the constructor. -/
inductive Core where
  | nop
  | io (enab : LevelEnabler) (enc : Encoder) (out : WriteSyncer)
  | multi (cores : List Core)
  | levelFilter (core : Core) (level : LevelEnabler)
  | hooked (core : Core) (funcs : List HookFn)

/-- Go `CheckedEntry`: the pooled aggregate of an entry, an error output,
the dirty flag, the post-write hook and the cores that agreed to log. -/
structure CheckedEntry where
  Entry : Entry := {}
  ErrorOutput : Option WriteSyncer := none
  dirty : Bool := false
  after : Option CheckWriteHook := none
  cores : List Core := []

mutual

/-- Go `Enabled(lvl Level) bool` of each core variant: `nopCore` always
false; `ioCore` promotes its embedded `LevelEnabler`; `multiCore` is the OR
over children; `levelFilterCore` asks its own (raised) enabler; `hooked`
promotes its embedded wrapped core. -/
def Core.Enabled : Core → Level → Bool
  | .nop, _ => false
  | .io enab _ _, l => enab.Enabled l
  | .multi cs, l => Core.anyEnabled cs l
  | .levelFilter _ level, l => level.Enabled l
  | .hooked inner _, l => Core.Enabled inner l

/-- The Go range loop of `multiCore.Enabled`: true as soon as one child
enables the level. -/
def Core.anyEnabled : List Core → Level → Bool
  | [], _ => false
  | c :: cs, l => Core.Enabled c l || Core.anyEnabled cs l

end

mutual

/-- Whether a core's dynamic type implements `leveledEnabler`, and the
result of its `Level()` method: `nopCore` has no `Level()` method; `ioCore`
returns `LevelOf(c.LevelEnabler)`; `multiCore` folds the minimum of
`LevelOf` over its children starting from `_maxLevel`; `levelFilterCore`
returns `LevelOf(c.level)`; `hooked` returns `LevelOf(h.Core)`. -/
def Core.levelMethod : Core → Option Level
  | .nop => none
  | .io enab _ _ => some (LevelOf enab)
  | .multi cs => some (Core.minLevelAux cs _maxLevel)
  | .levelFilter _ level => some (LevelOf level)
  | .hooked inner _ =>
      some ((Core.levelMethod inner).getD (levelProbe (Core.Enabled inner)))

/-- The Go loop of `multiCore.Level`: `minLvl := _maxLevel; for i { if lvl
:= LevelOf(mc[i]); lvl < minLvl { minLvl = lvl } }`.  The inlined `getD`
expression is `LevelOf` applied to the child core. -/
def Core.minLevelAux : List Core → Level → Level
  | [], minLvl => minLvl
  | c :: cs, minLvl =>
      let lvl := (Core.levelMethod c).getD (levelProbe (Core.Enabled c))
      Core.minLevelAux cs (if lvl < minLvl then lvl else minLvl)

end

/-- Go `LevelOf` applied to a core used as a `LevelEnabler`: use its
`Level()` method if the dynamic type has one, else probe Debug..Fatal. -/
def LevelOfCore (c : Core) : Level :=
  (Core.levelMethod c).getD (levelProbe (Core.Enabled c))

mutual

/-- Go `With(fields []Field) Core` of each variant: `nopCore` returns
itself; `ioCore` clones itself with a cloned encoder into which the fields
are written; `multiCore` maps `With` over the children; the filter and hook
decorators rebuild themselves around the wrapped core's `With`. -/
def Core.With : Core → List Field → Core
  | .nop, _ => .nop
  | .io enab enc out, fields => .io enab (addFields (Encoder.Clone enc) fields) out
  | .multi cs, fields => .multi (Core.withAll cs fields)
  | .levelFilter inner level, fields => .levelFilter (Core.With inner fields) level
  | .hooked inner funcs, fields => .hooked (Core.With inner fields) funcs

/-- The Go clone loop of `multiCore.With`. -/
def Core.withAll : List Core → List Field → List Core
  | [], _ => []
  | c :: cs, fields => Core.With c fields :: Core.withAll cs fields

end

/-- Go `getCheckedEntry()`: a pool `Get` followed by `reset()`, so the
caller always observes the zero state. -/
def getCheckedEntry : CheckedEntry := {}

/-- Go `func (ce *CheckedEntry) AddCore(ent Entry, core Core)
*CheckedEntry`: nil-tolerant — a nil receiver first obtains a fresh reset
instance and stores the entry; then the core is appended to the core list.
The Go return value is never nil, so the result type is `CheckedEntry`. -/
def CheckedEntry.AddCore (ce : Option CheckedEntry) (ent : Zapcore.Entry) (core : Core) :
    CheckedEntry :=
  match ce with
  | none => { getCheckedEntry with Entry := ent, cores := [core] }
  | some c => { c with cores := c.cores ++ [core] }

/-- Go `func (ce *CheckedEntry) After(ent Entry, hook CheckWriteHook)
*CheckedEntry`: same nil-tolerant acquisition, then stores the hook,
overriding any previously set one. -/
def CheckedEntry.After (ce : Option CheckedEntry) (ent : Zapcore.Entry) (hook : CheckWriteHook) :
    CheckedEntry :=
  match ce with
  | none => { getCheckedEntry with Entry := ent, after := some hook }
  | some c => { c with after := some hook }

mutual

/-- Go `Check(ent Entry, ce *CheckedEntry) *CheckedEntry` of each variant:
`nopCore` passes the handle through; `ioCore` appends itself via `AddCore`
when enabled; `multiCore` folds `Check` over its children threading the
handle; `levelFilterCore` consults its own enabler first and only then
delegates to the wrapped core; `hooked` delegates and, when the delegated
check returned non-nil, appends itself to that result. -/
def Core.Check : Core → Entry → Option CheckedEntry → Option CheckedEntry
  | .nop, _, ce => ce
  | c@(.io enab _ _), ent, ce =>
      if enab.Enabled ent.Level then some (CheckedEntry.AddCore ce ent c) else ce
  | .multi cs, ent, ce => Core.checkAll cs ent ce
  | .levelFilter inner level, ent, ce =>
      if !(level.Enabled ent.Level) then ce else Core.Check inner ent ce
  | c@(.hooked inner _), ent, ce =>
      match Core.Check inner ent ce with
      | some downstream => some (CheckedEntry.AddCore (some downstream) ent c)
      | none => ce

/-- The Go range loop of `multiCore.Check`, threading the accumulator. -/
def Core.checkAll : List Core → Entry → Option CheckedEntry → Option CheckedEntry
  | [], _, ce => ce
  | c :: cs, ent, ce => Core.checkAll cs ent (Core.Check c ent ce)

end

/-- The Go loop of `hooked.Write`: run every callback in registration order
against the entry, combining errors with `multierr.Append`. -/
def hookedWrite : List HookFn → Entry → List Event × List Err
  | [], _ => ([], [])
  | f :: fs, ent =>
      let rest := hookedWrite fs ent
      (Event.hookCall f.hid ent :: rest.1, (f.run ent).toList ++ rest.2)

mutual

/-- Go `Write(ent Entry, fields []Field) error` of each variant, paired
with the trace of side effects it performs.  `ioCore.Write`: encode (an
encoding error is returned with nothing written), hand the buffer bytes to
the sink's `Write`, free the buffer, return a sink error if any, and — only
then, when `ent.Level > ErrorLevel` — call `Sync`, ignoring its error.
`multiCore.Write` invokes every child and concatenates the errors
(`multierr.Append`).  `levelFilterCore.Write` delegates.  `hooked.Write`
runs the callbacks only (the wrapped core registered itself separately) and
ignores the fields. -/
def Core.Write : Core → Entry → List Field → List Event × List Err
  | .nop, _, _ => ([], [])
  | .io _ enc out, ent, fields =>
      match Encoder.EncodeEntry enc ent fields with
      | .error e => ([], [e])
      | .ok buf =>
          match out.writeRes buf.data with
          | some e => ([Event.sinkWrite out.sid buf.data, Event.bufFree], [e])
          | none =>
              if ent.Level > ErrorLevel then
                ([Event.sinkWrite out.sid buf.data, Event.bufFree,
                  Event.sinkSync out.sid], [])
              else
                ([Event.sinkWrite out.sid buf.data, Event.bufFree], [])
  | .multi cs, ent, fields => Core.writeAll cs ent fields
  | .levelFilter inner _, ent, fields => Core.Write inner ent fields
  | .hooked _ funcs, ent, _ => hookedWrite funcs ent

/-- The Go error-appending loop of `multiCore.Write`. -/
def Core.writeAll : List Core → Entry → List Field → List Event × List Err
  | [], _, _ => ([], [])
  | c :: cs, ent, fields =>
      let r := Core.Write c ent fields
      let rest := Core.writeAll cs ent fields
      (r.1 ++ rest.1, r.2 ++ rest.2)

end

mutual

/-- Go `Sync() error` of each variant: `nopCore` trivially succeeds;
`ioCore` delegates to its sink; `multiCore` syncs every child and
concatenates the errors; the decorators delegate to the wrapped core. -/
def Core.Sync : Core → List Event × List Err
  | .nop => ([], [])
  | .io _ _ out => ([Event.sinkSync out.sid], (out.syncRes).toList)
  | .multi cs => Core.syncAll cs
  | .levelFilter inner _ => Core.Sync inner
  | .hooked inner _ => Core.Sync inner

/-- The Go error-appending loop of `multiCore.Sync`. -/
def Core.syncAll : List Core → List Event × List Err
  | [] => ([], [])
  | c :: cs =>
      let r := Core.Sync c
      let rest := Core.syncAll cs
      (r.1 ++ rest.1, r.2 ++ rest.2)

end

/-- Go `NewNopCore()`. -/
def NewNopCore : Core := .nop

/-- Go `NewCore(enc, ws, enab)`: the leaf `ioCore`. -/
def NewCore (enc : Encoder) (ws : WriteSyncer) (enab : LevelEnabler) : Core :=
  .io enab enc ws

/-- Go `NewTee(cores ...Core) Core`: zero cores give the no-op core, one
core is returned unchanged, two or more are wrapped as a `multiCore`. -/
def NewTee : List Core → Core
  | [] => NewNopCore
  | [c] => c
  | cores => .multi cores

/-- Go `RegisterHooks(core, hooks...)`: wraps the core with the copied
callback list. -/
def RegisterHooks (core : Core) (hooks : List HookFn) : Core :=
  .hooked core hooks

/-- Go `NewIncreaseLevelCore(core, level)`: scan the levels Fatal down to
Debug; if some level is disabled by the wrapped core yet enabled by the new
enabler, fail with a descriptive error; otherwise wrap as a
`levelFilterCore`. -/
def NewIncreaseLevelCore (core : Core) (level : LevelEnabler) : Except Err Core :=
  match allLevelsDesc.find? (fun l => !(Core.Enabled core l) && level.Enabled l) with
  | some _ =>
      .error "invalid increase level, as level is allowed by increased level, but not by existing core"
  | none => .ok (.levelFilter core level)

/-- A diagnostic line the `CheckedEntry` write protocol emits to its
configured error output: either the unsafe-reuse report of a dirty pooled
instance, or the report of an aggregated core write error. -/
inductive Diagnostic where
  | unsafeReuse (ent : Entry)
  | writeError (ent : Entry) (errs : List Err)
  deriving DecidableEq

/-- Concatenation of a list of lists (`multierr` aggregation over a loop,
and trace concatenation). -/
def concatAll {α : Type} : List (List α) → List α
  | [] => []
  | x :: xs => x ++ concatAll xs

/-- Everything observable about one `CheckedEntry.Write` call: the state of
the instance after the call (the Go code mutates it in place), the core
`Write` invocations it made (with their arguments, in order), the sink and
hook events those produced, the diagnostic lines sent to the error output,
and the `OnWrite` hook invocations. -/
structure WriteOutcome where
  state : CheckedEntry
  calls : List (Core × Entry × List Field)
  events : List Event
  diags : List Diagnostic
  hookCalls : List (CheckWriteHook × List Field)

/-- Go `func (ce *CheckedEntry) Write(fields ...Field)` on a non-nil
receiver: if `dirty` is set, emit the unsafe-reuse diagnostic (only when an
`ErrorOutput` is configured) and return without touching any core;
otherwise set `dirty`, invoke `Write(ce.Entry, fields)` once on every
accumulated core appending the errors, report a non-nil aggregate to the
error output, invoke the post-write hook with the fields, and return the
instance to the pool. -/
def CheckedEntry.Write (ce : CheckedEntry) (fields : List Field) : WriteOutcome :=
  if ce.dirty then
    { state := ce
      calls := []
      events := []
      diags :=
        match ce.ErrorOutput with
        | some _ => [Diagnostic.unsafeReuse ce.Entry]
        | none => []
      hookCalls := [] }
  else
    let results := ce.cores.map fun c => Core.Write c ce.Entry fields
    let errs := concatAll (results.map Prod.snd)
    { state := { ce with dirty := true }
      calls := ce.cores.map fun c => (c, ce.Entry, fields)
      events := concatAll (results.map Prod.fst)
      diags :=
        if errs ≠ [] then
          match ce.ErrorOutput with
          | some _ => [Diagnostic.writeError ce.Entry errs]
          | none => []
        else []
      hookCalls :=
        match ce.after with
        | some h => [(h, fields)]
        | none => [] }

/-- Go `terminalHookOverride(defaultHook, override)` in the logger facade:
a nil or `WriteThenNoop` override falls back to the default terminal hook;
any other override takes precedence. -/
def terminalHookOverride (defaultHook : CheckWriteHook)
    (override : Option CheckWriteHook) : CheckWriteHook :=
  match override with
  | none => defaultHook
  | some o => if o = CheckWriteHook.action .WriteThenNoop then defaultHook else o

/-- The terminal-behavior switch of Go `Logger.check`: on `PanicLevel`
install `terminalHookOverride(WriteThenPanic, onPanic)` via `After`; on
`FatalLevel` install `terminalHookOverride(WriteThenFatal, onFatal)`; on
`DPanicLevel` do so only in development mode; otherwise leave the handle
untouched. -/
def checkInstallTerminalHook (development : Bool)
    (onPanic onFatal : Option CheckWriteHook)
    (ent : Entry) (ce : Option CheckedEntry) : Option CheckedEntry :=
  if ent.Level = PanicLevel then
    some (CheckedEntry.After ce ent
      (terminalHookOverride (.action .WriteThenPanic) onPanic))
  else if ent.Level = FatalLevel then
    some (CheckedEntry.After ce ent
      (terminalHookOverride (.action .WriteThenFatal) onFatal))
  else if ent.Level = DPanicLevel then
    if development then
      some (CheckedEntry.After ce ent
        (terminalHookOverride (.action .WriteThenPanic) onPanic))
    else ce
  else ce

/-- A `LevelEnabler` that enables nothing (no `Level()` method). -/
def neverEnabler : LevelEnabler := { Enabled := fun _ => false }

/-- A `LevelEnabler` that enables everything (no `Level()` method). -/
def alwaysEnabler : LevelEnabler := { Enabled := fun _ => true }

/-- An encoder that always succeeds, producing the single byte 1. -/
def encOk : Encoder := { encodeFn := fun _ _ _ => .ok { data := [1] } }

/-- An encoder that always fails. -/
def encFail : Encoder := { encodeFn := fun _ _ _ => .error "encode failed" }

/-- A sink whose `Write` always succeeds (and `Sync` succeeds). -/
def sinkOk : WriteSyncer := {}

/-- A sink whose `Write` always fails. -/
def sinkFail : WriteSyncer := { writeRes := fun _ => some "write failed" }

/-- A Fatal-level entry. -/
def fatalEntry : Entry := { Level := FatalLevel }

/-- A concrete fresh `CheckedEntry` with one accumulated core and a
configured error output, as produced by `AddCore` plus the facade setting
`ErrorOutput`. -/
def ceEx : CheckedEntry :=
  { CheckedEntry.AddCore none {} Core.nop with ErrorOutput := some sinkOk }

/-!
Helper lemmas about the loop helpers of the embedding.
-/

theorem concatAll_eq_nil {α : Type} (xs : List (List α)) :
    concatAll xs = [] ↔ ∀ x ∈ xs, x = [] := by
  induction xs with
  | nil => simp [concatAll]
  | cons x xs ih => simp [concatAll, ih]

theorem writeAll_eq (cs : List Core) (ent : Entry) (fields : List Field) :
    Core.writeAll cs ent fields =
      (concatAll (cs.map fun c => (Core.Write c ent fields).1),
       concatAll (cs.map fun c => (Core.Write c ent fields).2)) := by
  induction cs with
  | nil => rfl
  | cons c cs ih => simp [Core.writeAll, concatAll, ih]

theorem syncAll_eq (cs : List Core) :
    Core.syncAll cs =
      (concatAll (cs.map fun c => (Core.Sync c).1),
       concatAll (cs.map fun c => (Core.Sync c).2)) := by
  induction cs with
  | nil => rfl
  | cons c cs ih => simp [Core.syncAll, concatAll, ih]

theorem anyEnabled_eq (cs : List Core) (l : Level) :
    Core.anyEnabled cs l = cs.any fun c => Core.Enabled c l := by
  induction cs with
  | nil => rfl
  | cons c cs ih => simp [Core.anyEnabled, ih]

theorem hookedWrite_eq (funcs : List HookFn) (ent : Entry) :
    hookedWrite funcs ent =
      ((funcs.map fun f => Event.hookCall f.hid ent),
       concatAll (funcs.map fun f => (f.run ent).toList)) := by
  induction funcs with
  | nil => rfl
  | cons f fs ih => simp [hookedWrite, concatAll, ih]

theorem minLevelAux_eq (cs : List Core) (m : Level) :
    Core.minLevelAux cs m = cs.foldl (fun acc c => min acc (LevelOfCore c)) m := by
  induction cs generalizing m with
  | nil => rfl
  | cons c cs ih =>
      have step : Core.minLevelAux (c :: cs) m =
          Core.minLevelAux cs
            (if LevelOfCore c < m then LevelOfCore c else m) := rfl
      rw [step, List.foldl_cons, ih]
      congr 1
      rcases lt_or_le (LevelOfCore c) m with h | h
      · simp [h, min_eq_right h.le]
      · simp [not_lt.mpr h, min_eq_left h]

theorem allLevels_sorted : List.Sorted (· < ·) allLevels := by decide

theorem mem_allLevels {l : Level} :
    l ∈ allLevels ↔ _minLevel ≤ l ∧ l ≤ _maxLevel := by
  have h : ∀ x : Int,
      (x = -1 ∨ x = 0 ∨ x = 1 ∨ x = 2 ∨ x = 3 ∨ x = 4 ∨ x = 5) ↔
        (-1 ≤ x ∧ x ≤ 5) := by omega
  simpa [allLevels, DebugLevel, InfoLevel, WarnLevel, ErrorLevel, DPanicLevel,
    PanicLevel, FatalLevel, _minLevel, _maxLevel] using h l

theorem mem_allLevelsDesc {l : Level} :
    l ∈ allLevelsDesc ↔ _minLevel ≤ l ∧ l ≤ _maxLevel := by
  have h : ∀ x : Int,
      (x = 5 ∨ x = 4 ∨ x = 3 ∨ x = 2 ∨ x = 1 ∨ x = 0 ∨ x = -1) ↔
        (-1 ≤ x ∧ x ≤ 5) := by omega
  simpa [allLevelsDesc, DebugLevel, InfoLevel, WarnLevel, ErrorLevel, DPanicLevel,
    PanicLevel, FatalLevel, _minLevel, _maxLevel] using h l

theorem find?_sorted_some {p : Level → Bool} :
    ∀ (L : List Level), List.Sorted (· < ·) L → ∀ x, L.find? p = some x →
      p x = true ∧ x ∈ L ∧ ∀ y ∈ L, y < x → p y = false := by
  intro L
  induction L with
  | nil => intro _ x h; simp [List.find?] at h
  | cons a L ih =>
      intro hs x h
      rw [List.sorted_cons] at hs
      by_cases hpa : p a
      · rw [List.find?_cons_of_pos _ hpa] at h
        cases h
        refine ⟨hpa, List.mem_cons_self _ _, ?_⟩
        intro y hy hlt
        rcases List.mem_cons.mp hy with rfl | hyL
        · exact absurd hlt (lt_irrefl _)
        · exact absurd hlt (not_lt.mpr (hs.1 y hyL).le)
      · rw [List.find?_cons_of_neg _ hpa] at h
        obtain ⟨h1, h2, h3⟩ := ih hs.2 x h
        refine ⟨h1, List.mem_cons_of_mem _ h2, ?_⟩
        intro y hy hlt
        rcases List.mem_cons.mp hy with rfl | hyL
        · simpa using hpa
        · exact h3 y hyL hlt

theorem find?_sorted_eq_some {p : Level → Bool} :
    ∀ (L : List Level), List.Sorted (· < ·) L → ∀ x ∈ L, p x = true →
      (∀ y ∈ L, y < x → p y = false) → L.find? p = some x := by
  intro L
  induction L with
  | nil => intro _ x hx; simp at hx
  | cons a L ih =>
      intro hs x hx hpx hmin
      rw [List.sorted_cons] at hs
      rcases List.mem_cons.mp hx with rfl | hxL
      · rw [List.find?_cons_of_pos _ hpx]
      · have hax : a < x := hs.1 x hxL
        have hpa : ¬ p a := by
          have := hmin a (List.mem_cons_self _ _) hax
          simp [this]
        rw [List.find?_cons_of_neg _ hpa]
        exact ih hs.2 x hxL hpx fun y hy hlt =>
          hmin y (List.mem_cons_of_mem _ hy) hlt

/-!
The claims.
-/

/-- C1: `NewIncreaseLevelCore(core, level)` returns an error if and only if
there exists a level `l` among Debug..Fatal such that `core.Enabled(l)` is
false while `level.Enabled(l)` is true; when it succeeds, the returned
core's `Enabled(l)` equals `level.Enabled(l)` for every level `l`. -/
theorem claim_C1 (core : Core) (level : LevelEnabler) :
    ((∃ e, NewIncreaseLevelCore core level = .error e) ↔
      ∃ l, _minLevel ≤ l ∧ l ≤ _maxLevel ∧
        Core.Enabled core l = false ∧ level.Enabled l = true) ∧
    (∀ c', NewIncreaseLevelCore core level = .ok c' →
      ∀ l, Core.Enabled c' l = level.Enabled l) := by
  constructor
  · unfold NewIncreaseLevelCore
    cases h : allLevelsDesc.find? (fun l => !(Core.Enabled core l) && level.Enabled l) with
    | some x =>
        simp only [h]
        constructor
        · intro _
          have hx := List.find?_some h
          have hmem := List.mem_of_find?_eq_some h
          simp only [Bool.and_eq_true, Bool.not_eq_true'] at hx
          exact ⟨x, (mem_allLevelsDesc.mp hmem).1, (mem_allLevelsDesc.mp hmem).2,
            hx.1, hx.2⟩
        · intro _
          exact ⟨_, rfl⟩
    | none =>
        simp only [h]
        constructor
        · rintro ⟨e, he⟩
          cases he
        · rintro ⟨l, h1, h2, h3, h4⟩
          have := List.find?_eq_none.mp h l (mem_allLevelsDesc.mpr ⟨h1, h2⟩)
          simp [h3, h4] at this
  · intro c' hc' l
    unfold NewIncreaseLevelCore at hc'
    cases h : allLevelsDesc.find? (fun l => !(Core.Enabled core l) && level.Enabled l) with
    | some x =>
        rw [h] at hc'
        cases hc'
    | none =>
        rw [h] at hc'
        cases hc'
        simp [Core.Enabled]

/-- Witness for C1: with a never-enabling raise enabler over the no-op core
construction succeeds and the new `Enabled` agrees with the enabler; with an
always-enabling raise enabler over the no-op core construction errors. -/
theorem claim_C1_witness :
    (∃ e, NewIncreaseLevelCore Core.nop alwaysEnabler = .error e) ∧
    NewIncreaseLevelCore Core.nop neverEnabler =
      .ok (Core.levelFilter Core.nop neverEnabler) ∧
    Core.Enabled (Core.levelFilter Core.nop neverEnabler) ErrorLevel =
      neverEnabler.Enabled ErrorLevel := by
  refine ⟨?_, rfl, ?_⟩
  · exact (claim_C1 Core.nop alwaysEnabler).1.mpr
      ⟨WarnLevel, by decide, by decide, rfl, rfl⟩
  · exact (claim_C1 Core.nop neverEnabler).2 _ rfl ErrorLevel

/-- C10: `With` on a core built by a successful `NewIncreaseLevelCore` is
another level-filter core carrying the same `LevelEnabler` with only the
wrapped inner core replaced by `inner.With(fields)`, so its `Enabled`
agrees with the original's at every level. -/
theorem claim_C10 (core : Core) (level : LevelEnabler) (c' : Core)
    (fields : List Field)
    (h : NewIncreaseLevelCore core level = .ok c') :
    Core.With c' fields = Core.levelFilter (Core.With core fields) level ∧
    ∀ l, Core.Enabled (Core.With c' fields) l = Core.Enabled c' l := by
  unfold NewIncreaseLevelCore at h
  cases hf : allLevelsDesc.find? (fun l => !(Core.Enabled core l) && level.Enabled l) with
  | some x =>
      rw [hf] at h
      cases h
  | none =>
      rw [hf] at h
      cases h
      exact ⟨rfl, fun l => by simp [Core.With, Core.Enabled]⟩

/-- Witness for C10: concrete instance of the successful construction. -/
theorem claim_C10_witness :
    Core.With (Core.levelFilter Core.nop neverEnabler) [{ key := "k" }] =
      Core.levelFilter (Core.With Core.nop [{ key := "k" }]) neverEnabler ∧
    ∀ l, Core.Enabled (Core.With (Core.levelFilter Core.nop neverEnabler) [{ key := "k" }]) l =
      Core.Enabled (Core.levelFilter Core.nop neverEnabler) l :=
  claim_C10 Core.nop neverEnabler _ [{ key := "k" }] rfl

/-- C8: `LevelOf(e)` returns the enabler's own reported level when it has
one; otherwise it returns the smallest level in Debug..Fatal the enabler
enables (ascending probe), or `InvalidLevel` when it enables none of
Debug..Fatal. -/
theorem claim_C8 (e : LevelEnabler) :
    (∀ l, e.levelled = some l → LevelOf e = l) ∧
    (e.levelled = none →
      (∀ l, _minLevel ≤ l → l ≤ _maxLevel → e.Enabled l = false) →
      LevelOf e = InvalidLevel) ∧
    (e.levelled = none → ∀ l, _minLevel ≤ l → l ≤ _maxLevel →
      e.Enabled l = true →
      (∀ lo, _minLevel ≤ lo → lo < l → e.Enabled lo = false) →
      LevelOf e = l) := by
  refine ⟨?_, ?_, ?_⟩
  · intro l h
    simp [LevelOf, h]
  · intro h hall
    have hn : allLevels.find? e.Enabled = none := by
      rw [List.find?_eq_none]
      intro x hx
      simp [hall x (mem_allLevels.mp hx).1 (mem_allLevels.mp hx).2]
    simp [LevelOf, h, levelProbe, hn]
  · intro h l h1 h2 hl hmin
    have hs : allLevels.find? e.Enabled = some l := by
      apply find?_sorted_eq_some allLevels allLevels_sorted l
        (mem_allLevels.mpr ⟨h1, h2⟩) hl
      intro y hy hlt
      exact hmin y (mem_allLevels.mp hy).1 hlt
    simp [LevelOf, h, levelProbe, hs]

/-- Witness for C8: a Warn threshold without a `Level()` method probes to
Warn; a never-enabling enabler probes to `InvalidLevel`; an enabler with a
`Level()` method reports it directly. -/
theorem claim_C8_witness :
    LevelOf (Level.toEnabler WarnLevel) = WarnLevel ∧
    LevelOf neverEnabler = InvalidLevel ∧
    LevelOf { Enabled := fun _ => true, levelled := some ErrorLevel } = ErrorLevel := by
  refine ⟨?_, ?_, ?_⟩
  · apply (claim_C8 (Level.toEnabler WarnLevel)).2.2 rfl WarnLevel
      (by decide) (by decide) (by decide)
    intro lo h1 h2
    have harith : ∀ x : Int, -1 ≤ x → x < 1 → decide (x ≥ 1) = false := by
      intro x hx1 hx2
      simp
      omega
    exact harith lo h1 h2
  · apply (claim_C8 neverEnabler).2.1 rfl
    intro l _ _
    rfl
  · exact (claim_C8 _).1 ErrorLevel rfl

/-- C9: `NewTee` with zero cores returns a core with `Enabled` false at
every level and `Write`/`Sync` returning nil with no side effects;
`NewTee` with exactly one core returns that very core value; with two or
more cores it builds the `multiCore` wrapper over exactly that list. -/
theorem claim_C9 :
    (∀ l, Core.Enabled (NewTee []) l = false) ∧
    (∀ ent fields, Core.Write (NewTee []) ent fields = ([], [])) ∧
    (Core.Sync (NewTee []) = ([], [])) ∧
    (∀ c, NewTee [c] = c) ∧
    (∀ c1 c2 cs, NewTee (c1 :: c2 :: cs) = Core.multi (c1 :: c2 :: cs)) := by
  refine ⟨fun l => rfl, fun ent fields => rfl, rfl, fun c => rfl, fun c1 c2 cs => rfl⟩

/-- Counterexample to C3 as stated: for the tee of two no-op cores, each
child's `LevelOf` is `InvalidLevel`, but `Level()` returns `FatalLevel`
(the fold starts at `_maxLevel` and only ever decreases), so `Level()` is
not the minimum of the children's `LevelOf`. -/
theorem claim_C3_counterexample :
    ¬ (LevelOfCore (NewTee [Core.nop, Core.nop]) =
        min (LevelOfCore Core.nop) (LevelOfCore Core.nop)) := by decide

/-- C3 (amended): for two or more cores, the tee's `Enabled(l)` is the OR
of the children's `Enabled(l)`, and its `Level()` is the minimum of the
children's `LevelOf` clamped from above by `_maxLevel` (Fatal) — the Go
fold starts at `_maxLevel`, so when every child reports `InvalidLevel` the
result is `FatalLevel` rather than the true minimum. -/
theorem claim_C3 (c1 c2 : Core) (cs : List Core) (l : Level) :
    Core.Enabled (NewTee (c1 :: c2 :: cs)) l =
      ((c1 :: c2 :: cs).any fun c => Core.Enabled c l) ∧
    LevelOfCore (NewTee (c1 :: c2 :: cs)) =
      (c1 :: c2 :: cs).foldl (fun m c => min m (LevelOfCore c)) _maxLevel := by
  constructor
  · show Core.anyEnabled (c1 :: c2 :: cs) l = _
    exact anyEnabled_eq _ l
  · show Core.minLevelAux (c1 :: c2 :: cs) _maxLevel = _
    exact minLevelAux_eq _ _

/-- C4: `multiCore.Write` invokes `Write` on every child in order — even
when an earlier child errored — and returns the concatenation of all child
errors, which is nil exactly when every child succeeded; `multiCore.Sync`
aggregates the same way over the children's `Sync`. -/
theorem claim_C4 (cs : List Core) (ent : Entry) (fields : List Field) :
    Core.Write (Core.multi cs) ent fields =
      (concatAll (cs.map fun c => (Core.Write c ent fields).1),
       concatAll (cs.map fun c => (Core.Write c ent fields).2)) ∧
    ((Core.Write (Core.multi cs) ent fields).2 = [] ↔
      ∀ c ∈ cs, (Core.Write c ent fields).2 = []) ∧
    Core.Sync (Core.multi cs) =
      (concatAll (cs.map fun c => (Core.Sync c).1),
       concatAll (cs.map fun c => (Core.Sync c).2)) ∧
    ((Core.Sync (Core.multi cs)).2 = [] ↔
      ∀ c ∈ cs, (Core.Sync c).2 = []) := by
  have hw : Core.Write (Core.multi cs) ent fields = Core.writeAll cs ent fields := rfl
  have hs : Core.Sync (Core.multi cs) = Core.syncAll cs := rfl
  rw [hw, hs, writeAll_eq, syncAll_eq]
  refine ⟨rfl, ?_, rfl, ?_⟩
  · simp [concatAll_eq_nil]
  · simp [concatAll_eq_nil]

/-- Witness for C4 (the "nil iff all succeed" direction at a concrete
input): a tee of a failing-sink core and a succeeding-sink core writes to
both and yields a non-nil aggregate. -/
theorem claim_C4_witness :
    Core.Write (Core.multi [Core.io alwaysEnabler encOk sinkFail,
                            Core.io alwaysEnabler encOk sinkOk]) {} [] =
      ([Event.sinkWrite 0 [1], Event.bufFree, Event.sinkWrite 0 [1], Event.bufFree],
       ["write failed"]) ∧
    ¬ ((Core.Write (Core.multi [Core.io alwaysEnabler encOk sinkFail,
                                Core.io alwaysEnabler encOk sinkOk]) {} []).2 = []) := by
  constructor
  · rw [(claim_C4 [Core.io alwaysEnabler encOk sinkFail,
        Core.io alwaysEnabler encOk sinkOk] {} []).1]
    rfl
  · intro h
    have := (claim_C4 [Core.io alwaysEnabler encOk sinkFail,
        Core.io alwaysEnabler encOk sinkOk] {} []).2.1.mp h
      (Core.io alwaysEnabler encOk sinkFail) (by simp)
    revert this
    decide

/-- C2: the first `Write` on a clean `CheckedEntry` invokes
`Write(entry, fields)` exactly once on each accumulated core in order; a
second `Write` on the same instance (now dirty) invokes no core's `Write`
and, exactly when an `ErrorOutput` is configured, emits the unsafe-reuse
diagnostic to it.  Handles freshly obtained through `AddCore`/`After` on a
nil handle are clean. -/
theorem claim_C2 (ce : CheckedEntry) (fields fields2 : List Field)
    (h : ce.dirty = false) :
    ((ce.Write fields).calls = ce.cores.map fun c => (c, ce.Entry, fields)) ∧
    (((ce.Write fields).state.Write fields2).calls = []) ∧
    (∀ o, ce.ErrorOutput = some o →
      ((ce.Write fields).state.Write fields2).diags =
        [Diagnostic.unsafeReuse ce.Entry]) ∧
    (ce.ErrorOutput = none →
      ((ce.Write fields).state.Write fields2).diags = []) ∧
    (∀ ent c, (CheckedEntry.AddCore none ent c).dirty = false) ∧
    (∀ ent hk, (CheckedEntry.After none ent hk).dirty = false) := by
  have hstate : (ce.Write fields).state = { ce with dirty := true } := by
    simp [CheckedEntry.Write, h]
  refine ⟨?_, ?_, ?_, ?_, fun ent c => rfl, fun ent hk => rfl⟩
  · simp [CheckedEntry.Write, h]
  · rw [hstate]
    simp [CheckedEntry.Write]
  · intro o ho
    rw [hstate]
    simp [CheckedEntry.Write, ho]
  · intro ho
    rw [hstate]
    simp [CheckedEntry.Write, ho]

/-- Witness for C2: a clean one-core instance with a configured error
output writes its core once, and a second write makes no calls and emits
the diagnostic. -/
theorem claim_C2_witness :
    (ceEx.dirty = false) ∧
    ((ceEx.Write []).calls = ceEx.cores.map fun c => (c, ceEx.Entry, [])) ∧
    (((ceEx.Write []).state.Write []).calls = []) ∧
    (((ceEx.Write []).state.Write []).diags =
      [Diagnostic.unsafeReuse ceEx.Entry]) := by
  refine ⟨rfl, (claim_C2 ceEx [] [] rfl).1, (claim_C2 ceEx [] [] rfl).2.1, ?_⟩
  exact (claim_C2 ceEx [] [] rfl).2.2.1 sinkOk rfl

/-- Counterexample to C5 as stated: with a sink whose `Write` fails, a
Fatal-level entry (level > Error) is written without any `Sync` call — the
write error returns early — so "calls Sync iff level > Error" fails. -/
theorem claim_C5_counterexample :
    fatalEntry.Level > ErrorLevel ∧
    Event.sinkSync sinkFail.sid ∉
      (Core.Write (Core.io (Level.toEnabler DebugLevel) encOk sinkFail)
        fatalEntry []).1 := by decide

/-- C5 (amended): `ioCore.Write` encodes the entry and fields; an encoding
error aborts the write and is returned before anything reaches the sink;
otherwise the buffer bytes are handed to the sink's `Write` and the buffer
is freed; a sink write error is then returned without syncing; when the
sink write succeeds, `Sync` is additionally called (its error ignored) if
and only if `entry.Level > ErrorLevel`. -/
theorem claim_C5 (enab : LevelEnabler) (enc : Encoder) (out : WriteSyncer)
    (ent : Entry) (fields : List Field) :
    (∀ e, Encoder.EncodeEntry enc ent fields = .error e →
      Core.Write (Core.io enab enc out) ent fields = ([], [e])) ∧
    (∀ buf, Encoder.EncodeEntry enc ent fields = .ok buf →
      (∀ e, out.writeRes buf.data = some e →
        Core.Write (Core.io enab enc out) ent fields =
          ([Event.sinkWrite out.sid buf.data, Event.bufFree], [e])) ∧
      (out.writeRes buf.data = none →
        Core.Write (Core.io enab enc out) ent fields =
          ([Event.sinkWrite out.sid buf.data, Event.bufFree] ++
            (if ent.Level > ErrorLevel then [Event.sinkSync out.sid] else []),
           []))) := by
  constructor
  · intro e he
    simp [Core.Write, he]
  · intro buf hb
    constructor
    · intro e he
      simp [Core.Write, hb, he]
    · intro hn
      by_cases hl : ent.Level > ErrorLevel
      · simp [Core.Write, hb, hn, hl]
      · simp [Core.Write, hb, hn, hl]

/-- Witness for C5: the three branches at concrete inputs — encoding
failure, sink write failure at Fatal level (no sync), and success at Fatal
level (sync forced). -/
theorem claim_C5_witness :
    Core.Write (Core.io alwaysEnabler encFail sinkOk) fatalEntry [] =
      ([], ["encode failed"]) ∧
    Core.Write (Core.io alwaysEnabler encOk sinkFail) fatalEntry [] =
      ([Event.sinkWrite 0 [1], Event.bufFree], ["write failed"]) ∧
    Core.Write (Core.io alwaysEnabler encOk sinkOk) fatalEntry [] =
      ([Event.sinkWrite 0 [1], Event.bufFree, Event.sinkSync 0], []) := by
  refine ⟨?_, ?_, ?_⟩
  · exact (claim_C5 alwaysEnabler encFail sinkOk fatalEntry []).1 "encode failed" rfl
  · exact ((claim_C5 alwaysEnabler encOk sinkFail fatalEntry []).2
      { data := [1] } rfl).1 "write failed" rfl
  · have := ((claim_C5 alwaysEnabler encOk sinkOk fatalEntry []).2
      { data := [1] } rfl).2 rfl
    exact this.trans (by decide)

/-- C6: the hook decorator's `Check` delegates to the wrapped core and
appends itself to the resulting `CheckedEntry` exactly when the delegated
check returned non-nil, returning the incoming handle unchanged otherwise;
its `Write` runs every callback in registration order against the entry
only (fields ignored), aggregating all callback errors. -/
theorem claim_C6 (inner : Core) (funcs : List HookFn) (ent : Entry)
    (ce : Option CheckedEntry) (fields fields2 : List Field) :
    (∀ d, Core.Check inner ent ce = some d →
      Core.Check (Core.hooked inner funcs) ent ce =
        some { d with cores := d.cores ++ [Core.hooked inner funcs] }) ∧
    (Core.Check inner ent ce = none →
      Core.Check (Core.hooked inner funcs) ent ce = ce) ∧
    (Core.Write (Core.hooked inner funcs) ent fields =
      ((funcs.map fun f => Event.hookCall f.hid ent),
       concatAll (funcs.map fun f => (f.run ent).toList))) ∧
    (Core.Write (Core.hooked inner funcs) ent fields =
      Core.Write (Core.hooked inner funcs) ent fields2) := by
  refine ⟨?_, ?_, ?_, rfl⟩
  · intro d hd
    simp [Core.Check, hd, CheckedEntry.AddCore]
  · intro hn
    simp [Core.Check, hn]
  · show hookedWrite funcs ent = _
    exact hookedWrite_eq funcs ent

/-- Witness for C6: over an enabled leaf the decorator appends itself after
the leaf; over the never-logging no-op core the nil handle is returned
unchanged. -/
theorem claim_C6_witness :
    Core.Check (Core.hooked (Core.io alwaysEnabler encOk sinkOk) []) {} none =
      some { Entry := ({} : Entry),
             cores := [Core.io alwaysEnabler encOk sinkOk,
                       Core.hooked (Core.io alwaysEnabler encOk sinkOk) []] } ∧
    Core.Check (Core.hooked Core.nop []) {} none = none := by
  constructor
  · have := (claim_C6 (Core.io alwaysEnabler encOk sinkOk) [] {} none [] []).1
      { Entry := {}, cores := [Core.io alwaysEnabler encOk sinkOk] } rfl
    exact this
  · exact (claim_C6 Core.nop [] {} none [] []).2.1 rfl

/-- The `After` acquisition always stores the given hook. -/
theorem after_After (ce : Option CheckedEntry) (ent : Entry) (hk : CheckWriteHook) :
    (CheckedEntry.After ce ent hk).after = some hk := by
  cases ce <;> rfl

/-- C7: the hook installed on a Panic/Fatal (or development-mode DPanic)
entry is `terminalHookOverride(default, override)`, which is the override
exactly when it is neither nil nor the `WriteThenNoop` action and the
respective default terminal action otherwise — a nil or no-op override
never suppresses the default panic/exit behavior. -/
theorem claim_C7 (d : CheckWriteHook) (o : Option CheckWriteHook) (dev : Bool)
    (onPanic onFatal : Option CheckWriteHook) (ent : Entry)
    (ce : Option CheckedEntry) :
    (∀ o2, o = some o2 → o2 ≠ CheckWriteHook.action .WriteThenNoop →
      terminalHookOverride d o = o2) ∧
    ((o = none ∨ o = some (CheckWriteHook.action .WriteThenNoop)) →
      terminalHookOverride d o = d) ∧
    (ent.Level = PanicLevel →
      checkInstallTerminalHook dev onPanic onFatal ent ce =
        some (CheckedEntry.After ce ent
          (terminalHookOverride (.action .WriteThenPanic) onPanic)) ∧
      (CheckedEntry.After ce ent
          (terminalHookOverride (.action .WriteThenPanic) onPanic)).after =
        some (terminalHookOverride (.action .WriteThenPanic) onPanic)) ∧
    (ent.Level = FatalLevel →
      checkInstallTerminalHook dev onPanic onFatal ent ce =
        some (CheckedEntry.After ce ent
          (terminalHookOverride (.action .WriteThenFatal) onFatal)) ∧
      (CheckedEntry.After ce ent
          (terminalHookOverride (.action .WriteThenFatal) onFatal)).after =
        some (terminalHookOverride (.action .WriteThenFatal) onFatal)) ∧
    (ent.Level = DPanicLevel → dev = true →
      checkInstallTerminalHook dev onPanic onFatal ent ce =
        some (CheckedEntry.After ce ent
          (terminalHookOverride (.action .WriteThenPanic) onPanic)) ∧
      (CheckedEntry.After ce ent
          (terminalHookOverride (.action .WriteThenPanic) onPanic)).after =
        some (terminalHookOverride (.action .WriteThenPanic) onPanic)) := by
  refine ⟨?_, ?_, ?_, ?_, ?_⟩
  · rintro o2 rfl hne
    simp [terminalHookOverride, hne]
  · rintro (rfl | rfl) <;> simp [terminalHookOverride]
  · intro h
    refine ⟨?_, after_After _ _ _⟩
    simp [checkInstallTerminalHook, h]
  · intro h
    refine ⟨?_, after_After _ _ _⟩
    rw [checkInstallTerminalHook, h]
    simp [PanicLevel, FatalLevel]
  · intro h hdev
    refine ⟨?_, after_After _ _ _⟩
    rw [checkInstallTerminalHook, h, hdev]
    simp [PanicLevel, FatalLevel, DPanicLevel]

/-- Witness for C7: a custom override wins over the Fatal default; a no-op
override falls back to the default; at a Fatal entry the overridden hook is
installed. -/
theorem claim_C7_witness :
    terminalHookOverride (CheckWriteHook.action .WriteThenFatal)
      (some (CheckWriteHook.custom 7)) = CheckWriteHook.custom 7 ∧
    terminalHookOverride (CheckWriteHook.action .WriteThenFatal)
      (some (CheckWriteHook.action .WriteThenNoop)) =
      CheckWriteHook.action .WriteThenFatal ∧
    checkInstallTerminalHook false none (some (CheckWriteHook.custom 7))
        fatalEntry none =
      some (CheckedEntry.After none fatalEntry
        (terminalHookOverride (CheckWriteHook.action .WriteThenFatal)
          (some (CheckWriteHook.custom 7)))) := by
  refine ⟨?_, ?_, ?_⟩
  · exact (claim_C7 (CheckWriteHook.action .WriteThenFatal)
      (some (CheckWriteHook.custom 7)) false none none fatalEntry none).1
      (CheckWriteHook.custom 7) rfl (by decide)
  · exact (claim_C7 (CheckWriteHook.action .WriteThenFatal)
      (some (CheckWriteHook.action .WriteThenNoop)) false none none
      fatalEntry none).2.1 (Or.inr rfl)
  · exact ((claim_C7 (CheckWriteHook.action .WriteThenFatal) none false none
      (some (CheckWriteHook.custom 7)) fatalEntry none).2.2.2.1 rfl).1

end Zapcore
